import Mathlib

/-!
Shallow embedding of `src/tools/generate_data_static.py`.

The script turns a flat list of project records into a hierarchical
landscape document (categories → subcategories → items), either driven by
a static category plan (`build_landscape_from_static`) or derived from each
project's `category` field (`build_landscape_from_dynamic`).  Network and
filesystem effects of the logo download are modelled by a success oracle
`ok : String → Bool`; a raised Python exception is modelled by `Option`
(with `none` for a raise) where the code can raise.
-/

set_option synthInstance.maxSize 2000

namespace Landscape2

/-- A JSON field of an input record: the key may be absent, bound to null,
or bound to a string. -/
inductive JField where
  | missing
  | null
  | str (s : String)
deriving DecidableEq

/-- A value stored in a generated item dict: Python `None` or a string. -/
inductive JValue where
  | null
  | str (s : String)
deriving DecidableEq

/-- Python `d.get(k)`: an absent key and a null value both yield `None`. -/
def pyGet : JField → Option String
  | .missing => none
  | .null => none
  | .str s => some s

/-- The dict value written by `item[k] = d.get(k2)`: `None` for an absent
or null source field, otherwise the string itself. -/
def jvalOf : JField → JValue
  | .missing => .null
  | .null => .null
  | .str s => .str s

/-- Python truthiness of an optional string: `None` and `""` are falsy. -/
def truthy : Option String → Bool
  | none => false
  | some s => !s.isEmpty

/-- One entry of a project's `github_repos` list. -/
structure Repo where
  url : JField
deriving DecidableEq

/-- A raw project record, with the fields the script reads.  The
`github_repos` field is read as `project.get("github_repos") or []`, which
collapses an absent, null or empty value to the empty list, so it is
modelled directly as a list. -/
structure Project where
  name : JField
  summary : JField
  url : JField
  state : JField
  category : JField
  github_repos : List Repo
  logo : JField
deriving DecidableEq

/-- Python `s.split(sep)` on character lists.  The result is never empty:
splitting the empty string gives `[""]`. -/
def pySplit (sep : Char) : List Char → List (List Char)
  | [] => [[]]
  | c :: cs =>
    let rest := pySplit sep cs
    if c = sep then [] :: rest
    else
      match rest with
      | [] => [[c]]
      | h :: t => (c :: h) :: t

/-- Character-list form of `url.split("/")[-1].split("?")[0]`
(`download_logo`, line 75).  Python `[-1]` and `[0]` are total here because
`pySplit` never returns an empty list. -/
def pyFileNameL (l : List Char) : List Char :=
  (pySplit '?' ((pySplit '/' l).getLastD [])).headD []

/-- The local file name `download_logo` derives from a URL. -/
def pyFileName (url : String) : String :=
  String.mk (pyFileNameL url.toList)

/-- Embedding of `download_logo` (lines 68–83).  `ok url` models whether the
HTTP GET, the status check and the file write inside the `try` block all
succeed; any failure is caught and mapped to the placeholder name. -/
def download_logo (ok : String → Bool) (url : String) : String :=
  if ok url then pyFileName url else "placeholder.svg"

/-- The logo branch of item construction (lines 127–135 and 236–246):
download when a logo directory is configured and the URL is truthy,
otherwise keep the URL or fall back to the placeholder. -/
def resolveLogo (ok : String → Bool) (logo_dir : Bool) (logo_url : Option String) : String :=
  if logo_dir && truthy logo_url then
    download_logo ok (logo_url.getD "")
  else
    match logo_url with
    | some s => if s.isEmpty then "placeholder.svg" else s
    | none => "placeholder.svg"

/-- A generated item is a dict, kept as a key/value list in insertion
order so that key presence is observable. -/
abbrev Item := List (String × JValue)

/-- Embedding of `build_item` (lines 112–136).  The same construction is
inlined verbatim in `build_landscape_from_dynamic` (lines 217–249).
The keys `name`, `description` and `homepage_url` are written
unconditionally (possibly with a null value); `project` and `repo_url`
only when their source value is truthy; `logo` always, via the logo
branch. -/
def build_item (ok : String → Bool) (logo_dir : Bool) (project : Project) : Item :=
  let base : Item :=
    [("name", jvalOf project.name),
     ("description", jvalOf project.summary),
     ("homepage_url", jvalOf project.url)]
  let withState : Item :=
    match project.state with
    | .str s => if s.isEmpty then base else base ++ [("project", .str s)]
    | _ => base
  let withRepo : Item :=
    match project.github_repos with
    | [] => withState
    | r :: _ =>
      match r.url with
      | .str u => if u.isEmpty then withState else withState ++ [("repo_url", .str u)]
      | _ => withState
  withRepo ++ [("logo", .str (resolveLogo ok logo_dir (pyGet project.logo)))]

/-- An output subcategory: a name and an ordered item list. -/
structure Subcat where
  name : String
  items : List Item
deriving DecidableEq

/-- An output category: a name and an ordered subcategory list. -/
structure Category where
  name : String
  subcategories : List Subcat
deriving DecidableEq

/-- The generated landscape document: `{"categories": [...]}`. -/
structure Landscape where
  categories : List Category
deriving DecidableEq

/-- A subcategory of the static plan: a name and a list of referenced
project names. -/
structure PlanSub where
  name : String
  items : List String
deriving DecidableEq

/-- A category of the static plan. -/
structure PlanCat where
  name : String
  subcategories : List PlanSub
deriving DecidableEq

/-- The name key under which a project is stored in `projects_by_name`:
`p.get("name")`, i.e. `None` for an absent or null name field. -/
def pyName (p : Project) : Option String :=
  pyGet p.name

/-- Python dict assignment `d[k] = v` on an insertion-ordered
association list: an existing key keeps its position and gets the new
value, a fresh key is appended. -/
def dictInsert (k : Option String) (v : Project) :
    List (Option String × Project) → List (Option String × Project)
  | [] => [(k, v)]
  | (k', v') :: rest =>
    if k' = k then (k, v) :: rest else (k', v') :: dictInsert k v rest

/-- `projects_by_name = {p.get("name"): p for p in projects}` (line 103):
an insertion-ordered dict; a later project with a duplicate name
overwrites the earlier value in place. -/
def projectsByName (projects : List Project) : List (Option String × Project) :=
  projects.foldl (fun d p => dictInsert (pyName p) p d) []

/-- Python `d.get(k)` on the association list: first (and only) binding
of the key. -/
def dictFind? (k : Option String) : List (Option String × Project) → Option Project
  | [] => none
  | (k', v) :: rest => if k' = k then some v else dictFind? k rest

/-- The plan loop of `build_landscape_from_static` (lines 139–151):
each plan category and subcategory is emitted in plan order; each
referenced name that resolves in the lookup contributes one item, in the
plan's name-list order; unresolved names are skipped.  (The Python guard
`if proj_data:` tests dict truthiness, but any dict found under a string
key has at least a `name` entry, so it is equivalent to a found-test.) -/
def planCategories (ok : String → Bool) (logo_dir : Bool)
    (lookup : List (Option String × Project)) (static_categories : List PlanCat) :
    List Category :=
  static_categories.map (fun cat =>
    { name := cat.name
      subcategories := cat.subcategories.map (fun sub =>
        { name := sub.name
          items := sub.items.filterMap (fun proj_name =>
            (dictFind? (some proj_name) lookup).map (build_item ok logo_dir)) }) })

/-- The contents of the `assigned` set after the plan loop: every plan
name that resolved in the lookup (membership is all that is ever used). -/
def assignedNames (lookup : List (Option String × Project))
    (static_categories : List PlanCat) : List String :=
  (static_categories.flatMap (fun cat => cat.subcategories.flatMap (fun sub => sub.items))).filter
    (fun proj_name => (dictFind? (some proj_name) lookup).isSome)

/-- The unassigned pass (lines 154–157): iterate the lookup in insertion
order and build an item for every entry whose key is not in `assigned`
(a `None` key is never in the set of assigned plan names). -/
def unassignedItems (ok : String → Bool) (logo_dir : Bool)
    (lookup : List (Option String × Project)) (assigned : List String) :
    List Item :=
  (lookup.filter (fun kv =>
      match kv.1 with
      | some n => !assigned.contains n
      | none => true)).map (fun kv => build_item ok logo_dir kv.2)

/-- Embedding of `build_landscape_from_static` (lines 86–171). -/
def build_landscape_from_static (ok : String → Bool) (logo_dir : Bool)
    (projects : List Project) (static_categories : List PlanCat) : Landscape :=
  let lookup := projectsByName projects
  let output_categories := planCategories ok logo_dir lookup static_categories
  let leftovers := unassignedItems ok logo_dir lookup (assignedNames lookup static_categories)
  if leftovers.isEmpty then
    { categories := output_categories }
  else
    { categories := output_categories ++
        [{ name := "Unmapped", subcategories := [{ name := "Misc", items := leftovers }] }] }

/-- Python `s.split(sep, maxsplit=1)`: split at the first occurrence of
the separator only; one part when the separator is absent, two parts
otherwise. -/
def pySplitOnce (sep : Char) (s : String) : List String :=
  if sep ∈ s.toList then
    [String.mk (s.toList.takeWhile (· ≠ sep)),
     String.mk ((s.toList.dropWhile (· ≠ sep)).tail)]
  else [s]

/-- Python `s.strip()`: drop whitespace from both ends. -/
def pyStrip (s : String) : String :=
  String.mk (((s.toList.dropWhile Char.isWhitespace).reverse.dropWhile Char.isWhitespace).reverse)

/-- Lines 199–204: strip each part of `cat_str.split("/", maxsplit=1)`;
two parts give (category, subcategory), one part gives the whole field as
category with subcategory `"Misc"`. -/
def deriveLabels (cat_str : String) : String × String :=
  match (pySplitOnce '/' cat_str).map pyStrip with
  | [a, b] => (a, b)
  | [a] => (a, "Misc")
  | _ => ("", "Misc")

/-- Lines 198–204 including the fetch of the field:
`proj.get("category", "Unknown")` yields the default only for an absent
key; a null value reaches `cat_str.split` as `None` and raises
(`none` here). -/
def deriveCat (category : JField) : Option (String × String) :=
  match category with
  | .missing => some (deriveLabels "Unknown")
  | .null => none
  | .str s => some (deriveLabels s)

/-- The accumulator of the dynamic loop: the nested dicts
`categories[cat_name]["subcategories"][subcat_name]["items"]`, kept as
insertion-ordered association lists (the stored `name` fields always
equal the keys they were created under, so the keys carry them). -/
abbrev DynAcc := List (String × List (String × List Item))

/-- Python `d.setdefault(k, default)` followed by a mutation `f` of the
entry: an existing key keeps its position and value (then mutated), a
fresh key is appended with the mutated default. -/
def upsert {β : Type} (k : String) (d : β) (f : β → β) : List (String × β) → List (String × β)
  | [] => [(k, f d)]
  | (k', v) :: rest =>
    if k' = k then (k, f v) :: rest else (k', v) :: upsert k d f rest

/-- One iteration of the dynamic loop body after the labels are known:
`setdefault` the category, `setdefault` the subcategory, append the item. -/
def dynAdd (acc : DynAcc) (cat_name subcat_name : String) (item : Item) : DynAcc :=
  upsert cat_name [] (fun subcats =>
    upsert subcat_name [] (fun items => items ++ [item]) subcats) acc

/-- The per-project loop of `build_landscape_from_dynamic`
(lines 196–249); `none` models the `AttributeError` raised on a
null-valued category field. -/
def dynLoop (ok : String → Bool) (logo_dir : Bool) :
    DynAcc → List Project → Option DynAcc
  | acc, [] => some acc
  | acc, proj :: rest =>
    match deriveCat proj.category with
    | none => none
    | some (cat_name, subcat_name) =>
      dynLoop ok logo_dir (dynAdd acc cat_name subcat_name (build_item ok logo_dir proj)) rest

/-- The final conversion (lines 252–260): the nested dicts become the
list structure, preserving insertion order. -/
def dynToLandscape (acc : DynAcc) : Landscape :=
  { categories := acc.map (fun cat =>
      { name := cat.1
        subcategories := cat.2.map (fun sub => { name := sub.1, items := sub.2 }) }) }

/-- Embedding of `build_landscape_from_dynamic` (lines 174–260). -/
def build_landscape_from_dynamic (ok : String → Bool) (logo_dir : Bool)
    (projects : List Project) : Option Landscape :=
  (dynLoop ok logo_dir [] projects).map dynToLandscape

/-- The suffix of a character list after its last occurrence of `sep`
(the whole list when `sep` does not occur). -/
def afterLastSep (sep : Char) : List Char → List Char
  | [] => []
  | c :: cs =>
    if sep ∈ cs then afterLastSep sep cs
    else if c = sep then cs else c :: cs

/-- Modelled from the spec: the file name the spec's words describe — the
last path segment of the URL with any query string stripped, i.e. the
suffix after the last `/` of the part of the URL before the first `?`. -/
def lastPathSegmentQueryStripped (url : String) : String :=
  String.mk (afterLastSep '/' (url.toList.takeWhile (fun c => c ≠ '?')))

theorem pySplit_ne_nil (sep : Char) (l : List Char) : pySplit sep l ≠ [] := by
  cases l with
  | nil => simp [pySplit]
  | cons c cs =>
    simp only [pySplit]
    split
    · simp
    · split
      · simp
      · simp

theorem pySplit_of_not_mem (sep : Char) (l : List Char) (h : sep ∉ l) :
    pySplit sep l = [l] := by
  induction l with
  | nil => rfl
  | cons c cs ih =>
    simp only [List.mem_cons, not_or] at h
    simp only [pySplit]
    rw [if_neg (fun hc => h.1 hc.symm), ih h.2]

theorem headD_pySplit (sep : Char) (l : List Char) :
    (pySplit sep l).headD [] = l.takeWhile (fun c => c ≠ sep) := by
  induction l with
  | nil => rfl
  | cons c cs ih =>
    by_cases hc : c = sep
    · subst hc
      simp [pySplit, List.takeWhile]
    · obtain ⟨h, t, hht⟩ : ∃ h t, pySplit sep cs = h :: t := by
        cases hps : pySplit sep cs with
        | nil => exact absurd hps (pySplit_ne_nil sep cs)
        | cons h t => exact ⟨h, t, rfl⟩
      simp only [pySplit, hht, if_neg hc, List.headD_cons, List.takeWhile]
      simp only [hht, List.headD_cons] at ih
      simp [hc, ih]

theorem pySplit_two_of_mem (sep : Char) (l : List Char) (h : sep ∈ l) :
    ∃ x y zs, pySplit sep l = x :: y :: zs := by
  induction l with
  | nil => cases h
  | cons c cs ih =>
    by_cases hc : c = sep
    · obtain ⟨h1, t1, hht⟩ : ∃ h1 t1, pySplit sep cs = h1 :: t1 := by
        cases hps : pySplit sep cs with
        | nil => exact absurd hps (pySplit_ne_nil sep cs)
        | cons a b => exact ⟨a, b, rfl⟩
      exact ⟨[], h1, t1, by simp [pySplit, hc, hht]⟩
    · rcases List.mem_cons.mp h with hh | hh
      · exact absurd hh.symm hc
      · obtain ⟨x, y, zs, hxy⟩ := ih hh
        exact ⟨c :: x, y, zs, by simp only [pySplit, hxy, if_neg hc]⟩

theorem afterLastSep_of_not_mem (sep : Char) (l : List Char) (h : sep ∉ l) :
    afterLastSep sep l = l := by
  induction l with
  | nil => rfl
  | cons c cs ih =>
    simp only [List.mem_cons, not_or] at h
    simp only [afterLastSep]
    rw [if_neg h.2, if_neg (fun hc => h.1 hc.symm)]

theorem getLastD_pySplit (sep : Char) (l : List Char) :
    (pySplit sep l).getLastD [] = afterLastSep sep l := by
  induction l with
  | nil => rfl
  | cons c cs ih =>
    obtain ⟨h1, t1, hht⟩ : ∃ h1 t1, pySplit sep cs = h1 :: t1 := by
      cases hps : pySplit sep cs with
      | nil => exact absurd hps (pySplit_ne_nil sep cs)
      | cons a b => exact ⟨a, b, rfl⟩
    by_cases hc : c = sep
    · have e1 : pySplit sep (c :: cs) = [] :: h1 :: t1 := by
        simp [pySplit, hc, hht]
      rw [e1, List.getLastD_cons, ← hht, ih]
      by_cases hm : sep ∈ cs
      · simp [afterLastSep, hm]
      · rw [afterLastSep_of_not_mem sep cs hm]
        simp [afterLastSep, hm, hc]
    · have e1 : pySplit sep (c :: cs) = (c :: h1) :: t1 := by
        simp only [pySplit, hht, if_neg hc]
      rw [e1]
      by_cases hm : sep ∈ cs
      · obtain ⟨x, y, zs, hxy⟩ := pySplit_two_of_mem sep cs hm
        have h2 : h1 :: t1 = x :: y :: zs := hht.symm.trans hxy
        injection h2 with hx ht
        subst hx
        subst ht
        rw [List.getLastD_cons, List.getLastD_cons]
        rw [hxy, List.getLastD_cons, List.getLastD_cons] at ih
        rw [ih]
        simp [afterLastSep, hm]
      · have h2 : h1 :: t1 = [cs] := hht.symm.trans (pySplit_of_not_mem sep cs hm)
        injection h2 with hx ht
        subst hx
        subst ht
        simp [afterLastSep, hm, hc]

/-- The file-name derivation in closed form: take the suffix after the
last `/`, then cut at the first `?`. -/
theorem pyFileNameL_eq (l : List Char) :
    pyFileNameL l = (afterLastSep '/' l).takeWhile (fun c => c ≠ '?') := by
  unfold pyFileNameL
  rw [getLastD_pySplit, headD_pySplit]

theorem mem_of_mem_afterLastSep (sep : Char) (l : List Char) (x : Char)
    (h : x ∈ afterLastSep sep l) : x ∈ l := by
  induction l with
  | nil => cases h
  | cons c cs ih =>
    simp only [afterLastSep] at h
    by_cases hm : sep ∈ cs
    · rw [if_pos hm] at h
      exact List.mem_cons_of_mem c (ih h)
    · rw [if_neg hm] at h
      by_cases hc : c = sep
      · rw [if_pos hc] at h
        exact List.mem_cons_of_mem c h
      · rwa [if_neg hc] at h

theorem afterLastSep_append (sep : Char) (a b : List Char) (hb : sep ∉ b) :
    afterLastSep sep (a ++ b) = afterLastSep sep a ++ b := by
  induction a with
  | nil => simp [afterLastSep, afterLastSep_of_not_mem sep b hb]
  | cons c cs ih =>
    have hmem : sep ∈ cs ++ b ↔ sep ∈ cs := by simp [List.mem_append, hb]
    rw [List.cons_append]
    by_cases hm : sep ∈ cs
    · have e1 : afterLastSep sep (c :: (cs ++ b)) = afterLastSep sep (cs ++ b) := by
        simp [afterLastSep, hmem.mpr hm]
      rw [e1, ih]
      simp [afterLastSep, hm]
    · have hm' : sep ∉ cs ++ b := fun h => hm (hmem.mp h)
      simp only [afterLastSep, if_neg hm', if_neg hm]
      by_cases hc : c = sep
      · simp [hc]
      · simp [hc]

theorem takeWhile_append_of_all {α : Type} (p : α → Bool) (xs : List α) (y : α)
    (ys : List α) (h1 : ∀ x ∈ xs, p x = true) (h2 : p y = false) :
    (xs ++ y :: ys).takeWhile p = xs := by
  induction xs with
  | nil => simp [List.takeWhile, h2]
  | cons x xs ih =>
    simp only [List.cons_append, List.takeWhile, h1 x (List.mem_cons_self x xs)]
    exact congrArg (x :: ·) (ih (fun z hz => h1 z (List.mem_cons_of_mem x hz)))

theorem takeWhile_eq_self_of_all {α : Type} (p : α → Bool) (l : List α)
    (h : ∀ x ∈ l, p x = true) : l.takeWhile p = l := by
  induction l with
  | nil => rfl
  | cons x xs ih =>
    simp only [List.takeWhile, h x (List.mem_cons_self x xs)]
    rw [ih (fun z hz => h z (List.mem_cons_of_mem x hz))]

theorem dropWhile_append_of_all {α : Type} (p : α → Bool) (xs : List α) (y : α)
    (ys : List α) (h1 : ∀ x ∈ xs, p x = true) (h2 : p y = false) :
    (xs ++ y :: ys).dropWhile p = y :: ys := by
  induction xs with
  | nil => simp [List.dropWhile, h2]
  | cons x xs ih =>
    simp only [List.cons_append, List.dropWhile, h1 x (List.mem_cons_self x xs)]
    exact ih (fun z hz => h1 z (List.mem_cons_of_mem x hz))

theorem takeWhile_afterLastSep (l : List Char)
    (hq : '/' ∉ l.dropWhile (fun c => c ≠ '?')) :
    (afterLastSep '/' l).takeWhile (fun c => c ≠ '?') =
      afterLastSep '/' (l.takeWhile (fun c => c ≠ '?')) := by
  have hsplit := List.takeWhile_append_dropWhile (p := fun c => c ≠ '?') (l := l)
  have hqa : ∀ x ∈ l.takeWhile (fun c => c ≠ '?'), (fun c : Char => decide (c ≠ '?')) x = true :=
    fun x hx => List.mem_takeWhile_imp (p := fun c : Char => decide (c ≠ '?')) hx
  have h1 : afterLastSep '/' l =
      afterLastSep '/' (l.takeWhile (fun c => c ≠ '?')) ++ l.dropWhile (fun c => c ≠ '?') := by
    conv_lhs => rw [← hsplit]
    exact afterLastSep_append '/' _ _ hq
  rw [h1]
  have hmem : ∀ x ∈ afterLastSep '/' (l.takeWhile (fun c => c ≠ '?')),
      (fun c : Char => decide (c ≠ '?')) x = true :=
    fun x hx => hqa x (mem_of_mem_afterLastSep '/' _ x hx)
  cases hd : l.dropWhile (fun c => c ≠ '?') with
  | nil =>
    rw [List.append_nil]
    exact takeWhile_eq_self_of_all _ _ hmem
  | cons y ys =>
    have hy : (fun c : Char => decide (c ≠ '?')) y = false := by
      have := List.head?_dropWhile_not (fun c => decide (c ≠ '?')) l
      rw [hd] at this
      simpa using this
    exact takeWhile_append_of_all _ _ y ys hmem hy

/-- C7 counterexample: for a URL whose query string contains a `/`, the
derived file name is not the last path segment with the query stripped —
the code splits on `/` first, so the tail of the query wins. -/
theorem C7_counterexample :
    download_logo (fun _ => true) "https://example.com/logo.svg?v=1/2" ≠
      lastPathSegmentQueryStripped "https://example.com/logo.svg?v=1/2" ∧
    download_logo (fun _ => true) "https://example.com/logo.svg?v=1/2" = "2" ∧
    lastPathSegmentQueryStripped "https://example.com/logo.svg?v=1/2" = "logo.svg" := by
  refine ⟨?_, ?_, ?_⟩ <;> decide

/-- C7 (amended): on a successful fetch the saved file name is the last
`/`-separated segment of the URL truncated at its first `?`; this equals
the last path segment of the URL with the query string stripped whenever
no `/` occurs at or after the first `?` (in particular whenever the query
string contains no `/`). -/
theorem C7_file_name_amended (ok : String → Bool) (url : String)
    (hok : ok url = true)
    (hq : '/' ∉ url.toList.dropWhile (fun c => c ≠ '?')) :
    download_logo ok url = lastPathSegmentQueryStripped url := by
  unfold download_logo
  rw [if_pos hok]
  unfold pyFileName lastPathSegmentQueryStripped
  rw [pyFileNameL_eq, takeWhile_afterLastSep url.toList hq]

/-- Witness for the amended C7 at a concrete URL with a query string. -/
theorem C7_file_name_amended_witness :
    download_logo (fun _ => true) "https://example.com/a/logo.svg?v=1" =
      lastPathSegmentQueryStripped "https://example.com/a/logo.svg?v=1" ∧
    download_logo (fun _ => true) "https://example.com/a/logo.svg?v=1" = "logo.svg" :=
  ⟨C7_file_name_amended (fun _ => true) _ rfl (by decide), by decide⟩

/-! Observables on the generated document. -/

/-- The category names of a landscape, in order. -/
def catNames (L : Landscape) : List String :=
  L.categories.map (fun c => c.name)

/-- The subcategory names of a category, in order. -/
def subNames (c : Category) : List String :=
  c.subcategories.map (fun s => s.name)

/-- All items of a landscape, flattened in document order. -/
def allItems (L : Landscape) : List Item :=
  L.categories.flatMap (fun c => c.subcategories.flatMap (fun s => s.items))

/-- The value of an item's `name` key. -/
def itemName (it : Item) : Option JValue :=
  (it.find? (fun kv => kv.1 == "name")).map (fun kv => kv.2)

/-- How many items of the landscape carry the given `name` value. -/
def countNamed (L : Landscape) (v : JValue) : Nat :=
  (allItems L).countP (fun it => itemName it == some v)

/-- All project names referenced by a plan, flattened in plan order. -/
def planNames (static_categories : List PlanCat) : List String :=
  static_categories.flatMap (fun cat => cat.subcategories.flatMap (fun sub => sub.items))

/-! Lemmas on the name lookup. -/

theorem projectsByName_concat (ps : List Project) (p : Project) :
    projectsByName (ps ++ [p]) = dictInsert (pyName p) p (projectsByName ps) := by
  unfold projectsByName
  rw [List.foldl_append]
  rfl

theorem dictFind?_dictInsert (k k' : Option String) (v : Project)
    (d : List (Option String × Project)) :
    dictFind? k (dictInsert k' v d) = if k = k' then some v else dictFind? k d := by
  induction d with
  | nil =>
    simp only [dictInsert, dictFind?]
    by_cases h : k = k'
    · rw [if_pos h.symm, if_pos h]
    · rw [if_neg (fun hh => h hh.symm), if_neg h]
  | cons hd tl ih =>
    obtain ⟨hk, hv⟩ := hd
    simp only [dictInsert]
    by_cases h1 : hk = k'
    · rw [if_pos h1]
      simp only [dictFind?]
      by_cases h2 : k = k'
      · rw [if_pos (h2.symm), if_pos h2]
      · rw [if_neg (fun hh => h2 hh.symm), if_neg h2, if_neg (fun hh => h2 (h1 ▸ hh).symm)]
    · rw [if_neg h1]
      simp only [dictFind?, ih]
      by_cases h3 : hk = k
      · rw [if_pos h3, if_pos h3]
        rw [if_neg (fun hh : k = k' => h1 (h3.trans hh))]
      · rw [if_neg h3, if_neg h3]

theorem dictFind?_projectsByName (ps : List Project) (k : Option String) :
    dictFind? k (projectsByName ps) =
      (ps.filter (fun q => pyName q == k)).getLast? := by
  induction ps using List.reverseRecOn with
  | nil => rfl
  | append_singleton ps p ih =>
    rw [projectsByName_concat, dictFind?_dictInsert, List.filter_append]
    by_cases hk : k = pyName p
    · rw [if_pos hk]
      have hf : List.filter (fun q => pyName q == k) [p] = [p] := by
        simp [hk]
      rw [hf, List.getLast?_concat]
    · rw [if_neg hk]
      have hf : List.filter (fun q => pyName q == k) [p] = [] := by
        simp only [List.filter, List.filter_nil]
        have : (pyName p == k) = false := by
          simp only [beq_eq_false_iff_ne, ne_eq]
          exact fun hh => hk hh.symm
        rw [this]
      rw [hf, List.append_nil, ih]

theorem keys_dictInsert (k : Option String) (v : Project)
    (d : List (Option String × Project)) :
    (dictInsert k v d).map Prod.fst =
      if k ∈ d.map Prod.fst then d.map Prod.fst else d.map Prod.fst ++ [k] := by
  induction d with
  | nil => simp [dictInsert]
  | cons hd tl ih =>
    obtain ⟨hk, hv⟩ := hd
    simp only [dictInsert, List.map_cons]
    by_cases h1 : hk = k
    · rw [if_pos h1]
      simp [h1]
    · rw [if_neg h1]
      simp only [List.map_cons, ih, List.mem_cons]
      by_cases h2 : k ∈ tl.map Prod.fst
      · simp [h2]
      · have : ¬(k = hk ∨ k ∈ tl.map Prod.fst) := by
          rintro (hh | hh)
          · exact h1 hh.symm
          · exact h2 hh
        simp only [if_neg this, if_neg h2, List.cons_append]

theorem keys_nodup_dictInsert (k : Option String) (v : Project)
    (d : List (Option String × Project)) (h : (d.map Prod.fst).Nodup) :
    ((dictInsert k v d).map Prod.fst).Nodup := by
  rw [keys_dictInsert]
  by_cases hm : k ∈ d.map Prod.fst
  · rwa [if_pos hm]
  · rw [if_neg hm]
    simp [List.nodup_append, h, hm]

theorem projectsByName_keys_nodup (ps : List Project) :
    ((projectsByName ps).map Prod.fst).Nodup := by
  induction ps using List.reverseRecOn with
  | nil => simp [projectsByName]
  | append_singleton ps p ih =>
    rw [projectsByName_concat]
    exact keys_nodup_dictInsert _ _ _ ih

theorem dictFind?_of_mem (d : List (Option String × Project))
    (hnd : (d.map Prod.fst).Nodup) (k : Option String) (q : Project)
    (h : (k, q) ∈ d) : dictFind? k d = some q := by
  induction d with
  | nil => cases h
  | cons hd tl ih =>
    obtain ⟨hk, hv⟩ := hd
    simp only [List.map_cons, List.nodup_cons] at hnd
    rcases List.mem_cons.mp h with he | ht
    · have h1 : k = hk := congrArg Prod.fst he
      have h2 : q = hv := congrArg Prod.snd he
      simp only [dictFind?, if_pos h1.symm, h2]
    · have hne : hk ≠ k := by
        intro hh
        exact hnd.1 (List.mem_map.mpr ⟨(k, q), ht, hh.symm⟩)
      simp only [dictFind?, if_neg hne]
      exact ih hnd.2 ht

/-! Basic lemmas. -/

theorem build_item_head (ok : String → Bool) (ld : Bool) (p : Project) :
    ∃ rest, build_item ok ld p = ("name", jvalOf p.name) :: rest := by
  unfold build_item
  dsimp only
  repeat' split
  all_goals exact ⟨_, rfl⟩

theorem itemName_build_item (ok : String → Bool) (ld : Bool) (p : Project) :
    itemName (build_item ok ld p) = some (jvalOf p.name) := by
  obtain ⟨rest, h⟩ := build_item_head ok ld p
  rw [h]
  rfl

theorem dynLoop_eq_none (ok : String → Bool) (ld : Bool) (ps : List Project)
    (p : Project) (hp : p ∈ ps) (hc : p.category = JField.null) :
    ∀ acc, dynLoop ok ld acc ps = none := by
  induction ps with
  | nil => cases hp
  | cons q rest ih =>
    intro acc
    rcases List.mem_cons.mp hp with h | h
    · subst h
      simp [dynLoop, deriveCat, hc]
    · unfold dynLoop
      cases hq : deriveCat q.category with
      | none => rfl
      | some l => exact ih h _

theorem dictFind?_mem (d : List (Option String × Project)) (k : Option String)
    (v : Project) (h : dictFind? k d = some v) : (k, v) ∈ d := by
  induction d with
  | nil => cases h
  | cons hd tl ih =>
    obtain ⟨hk, hv⟩ := hd
    simp only [dictFind?] at h
    by_cases h1 : hk = k
    · rw [if_pos h1] at h
      injection h with h2
      exact List.mem_cons.mpr (Or.inl (by rw [h1, h2]))
    · rw [if_neg h1] at h
      exact List.mem_cons.mpr (Or.inr (ih h))

theorem mem_dictInsert (e : Option String × Project) (k : Option String)
    (v : Project) (d : List (Option String × Project))
    (h : e ∈ dictInsert k v d) : e = (k, v) ∨ e ∈ d := by
  induction d with
  | nil => simpa [dictInsert] using h
  | cons hd tl ih =>
    obtain ⟨hk, hv⟩ := hd
    simp only [dictInsert] at h
    by_cases h1 : hk = k
    · rw [if_pos h1] at h
      rcases List.mem_cons.mp h with he | ht
      · exact Or.inl he
      · exact Or.inr (List.mem_cons.mpr (Or.inr ht))
    · rw [if_neg h1] at h
      rcases List.mem_cons.mp h with he | ht
      · exact Or.inr (List.mem_cons.mpr (Or.inl he))
      · rcases ih ht with he | he
        · exact Or.inl he
        · exact Or.inr (List.mem_cons.mpr (Or.inr he))

/-- Every entry of the name lookup is keyed by its value's name and its
value is one of the loaded projects. -/
theorem mem_projectsByName (ps : List Project) (e : Option String × Project)
    (h : e ∈ projectsByName ps) : pyName e.2 = e.1 ∧ e.2 ∈ ps := by
  induction ps using List.reverseRecOn with
  | nil => cases h
  | append_singleton ps p ih =>
    rw [projectsByName_concat] at h
    rcases mem_dictInsert e (pyName p) p _ h with he | he
    · subst he
      exact ⟨rfl, List.mem_append.mpr (Or.inr (List.mem_singleton.mpr rfl))⟩
    · obtain ⟨h1, h2⟩ := ih he
      exact ⟨h1, List.mem_append.mpr (Or.inl h2)⟩

/-- A string-valued name key pins the name field down. -/
theorem pyName_some (p : Project) (n : String) (h : pyName p = some n) :
    p.name = JField.str n := by
  unfold pyName pyGet at h
  cases hq : p.name <;> rw [hq] at h <;> simp at h
  rw [h]

/-- A `None` name key means the name field is absent or null, so the
emitted name value is null. -/
theorem pyName_none (p : Project) (h : pyName p = none) :
    jvalOf p.name = JValue.null := by
  unfold pyName pyGet at h
  cases hq : p.name <;> rw [hq] at h <;> simp at h <;> rfl

/-- A project found under the string key `n` has name field `.str n`. -/
theorem name_of_dictFind? (ps : List Project) (n : String) (q : Project)
    (h : dictFind? (some n) (projectsByName ps) = some q) :
    q.name = JField.str n :=
  pyName_some q n (mem_projectsByName ps (some n, q) (dictFind?_mem _ _ _ h)).1

theorem dictInsert_of_not_mem (k : Option String) (v : Project)
    (d : List (Option String × Project)) (h : k ∉ d.map Prod.fst) :
    dictInsert k v d = d ++ [(k, v)] := by
  induction d with
  | nil => rfl
  | cons hd tl ih =>
    obtain ⟨hk, hv⟩ := hd
    simp only [List.map_cons, List.mem_cons] at h
    simp only [dictInsert, List.cons_append]
    rw [if_neg (fun hh => h (Or.inl hh.symm)), ih (fun hh => h (Or.inr hh))]

/-- With pairwise distinct name keys, the lookup lists the projects in
load order, each under its own name. -/
theorem projectsByName_of_nodup (ps : List Project)
    (hnd : (ps.map pyName).Nodup) :
    projectsByName ps = ps.map (fun p => (pyName p, p)) := by
  induction ps using List.reverseRecOn with
  | nil => rfl
  | append_singleton ps p ih =>
    rw [List.map_append] at hnd
    have hnd' : (ps.map pyName).Nodup := (List.nodup_append.mp hnd).1
    have hfresh : pyName p ∉ ps.map pyName := by
      intro hmem
      exact (List.nodup_append.mp hnd).2.2 hmem (by simp)
    have hkeys : pyName p ∉ (projectsByName ps).map Prod.fst := by
      intro hmem
      obtain ⟨e, he, hfst⟩ := List.mem_map.mp hmem
      obtain ⟨h1, h2⟩ := mem_projectsByName ps e he
      exact hfresh (List.mem_map.mpr ⟨e.2, h2, h1.trans hfst⟩)
    rw [projectsByName_concat, dictInsert_of_not_mem _ _ _ hkeys, ih hnd',
      List.map_append]
    rfl

/-- The synthetic fallback category (lines 160–168) holding the given
leftover items. -/
def unmappedCategory (leftovers : List Item) : Category :=
  { name := "Unmapped", subcategories := [{ name := "Misc", items := leftovers }] }

/-- The static output is the plan-driven categories followed by the
conditional Unmapped category. -/
theorem static_categories_eq (ok : String → Bool) (ld : Bool)
    (ps : List Project) (plan : List PlanCat) :
    (build_landscape_from_static ok ld ps plan).categories =
      planCategories ok ld (projectsByName ps) plan ++
        (if (unassignedItems ok ld (projectsByName ps)
              (assignedNames (projectsByName ps) plan)).isEmpty then []
         else [unmappedCategory (unassignedItems ok ld (projectsByName ps)
                 (assignedNames (projectsByName ps) plan))]) := by
  simp only [build_landscape_from_static, unmappedCategory]
  split
  · simp_all
  · simp_all

theorem filterMap_isEmpty_eq_all {α β : Type} (f : α → Option β) (l : List α) :
    (l.filterMap f).isEmpty = l.all (fun a => (f a).isNone) := by
  induction l with
  | nil => rfl
  | cons a l ih =>
    cases hfa : f a with
    | none => simpa [List.filterMap_cons, hfa] using ih
    | some b => simp [List.filterMap_cons, hfa]

/-- Whether the static pass marks a project's name as assigned. -/
def isAssigned (ps : List Project) (plan : List PlanCat) (p : Project) : Bool :=
  match pyName p with
  | some n => (assignedNames (projectsByName ps) plan).contains n
  | none => false

/-- The item names emitted for a plan subcategory follow the plan's
name-list order, restricted to the names that resolve. -/
theorem planSub_item_names (ok : String → Bool) (ld : Bool) (ps : List Project)
    (names : List String) :
    (names.filterMap (fun n =>
        (dictFind? (some n) (projectsByName ps)).map (build_item ok ld))).map itemName
      = (names.filter (fun n =>
          (dictFind? (some n) (projectsByName ps)).isSome)).map
          (fun n => some (JValue.str n)) := by
  induction names with
  | nil => rfl
  | cons n names ih =>
    simp only [List.filterMap_cons, List.filter_cons]
    cases hf : dictFind? (some n) (projectsByName ps) with
    | none => simpa using ih
    | some q =>
      have hq : q.name = JField.str n := name_of_dictFind? ps n q hf
      simp [itemName_build_item, ih, hq, jvalOf]

/-- Under distinct name keys, the unassigned pass lists the never-assigned
projects in original load order. -/
theorem unassignedItems_of_nodup (ok : String → Bool) (ld : Bool)
    (ps : List Project) (plan : List PlanCat) (hnd : (ps.map pyName).Nodup) :
    unassignedItems ok ld (projectsByName ps) (assignedNames (projectsByName ps) plan)
      = (ps.filter (fun p => !isAssigned ps plan p)).map (build_item ok ld) := by
  unfold unassignedItems
  set A := assignedNames (projectsByName ps) plan with hA
  rw [projectsByName_of_nodup ps hnd, List.filter_map, List.map_map]
  have hpred : ((fun kv : Option String × Project =>
      match kv.1 with
      | some n => !A.contains n
      | none => true) ∘ fun p => (pyName p, p)) = fun p => !isAssigned ps plan p := by
    funext p
    simp only [Function.comp, isAssigned, ← hA]
    cases pyName p <;> rfl
  rw [hpred]
  rfl

theorem mem_planCategories_items (ok : String → Bool) (ld : Bool)
    (lookup : List (Option String × Project)) (plan : List PlanCat) (it : Item)
    (h : it ∈ (planCategories ok ld lookup plan).flatMap
        (fun c => c.subcategories.flatMap (fun s => s.items))) :
    ∃ n q, dictFind? (some n) lookup = some q ∧ it = build_item ok ld q := by
  simp only [planCategories, List.mem_flatMap, List.mem_map] at h
  obtain ⟨c, ⟨cat, hcat, rfl⟩, hc⟩ := h
  simp only [List.mem_flatMap, List.mem_map] at hc
  obtain ⟨s, ⟨sub, hsub, rfl⟩, hs⟩ := hc
  simp only [List.mem_filterMap, Option.map_eq_some'] at hs
  obtain ⟨n, hn, q, hq, rfl⟩ := hs
  exact ⟨n, q, hq, rfl⟩

theorem mem_unassignedItems (ok : String → Bool) (ld : Bool)
    (lookup : List (Option String × Project)) (assigned : List String) (it : Item)
    (h : it ∈ unassignedItems ok ld lookup assigned) :
    ∃ kv, kv ∈ lookup ∧ it = build_item ok ld kv.2 := by
  simp only [unassignedItems, List.mem_map, List.mem_filter] at h
  obtain ⟨kv, ⟨hkv, _⟩, rfl⟩ := h
  exact ⟨kv, hkv, rfl⟩

theorem mem_allItems_static (ok : String → Bool) (ld : Bool) (ps : List Project)
    (plan : List PlanCat) (it : Item)
    (h : it ∈ allItems (build_landscape_from_static ok ld ps plan)) :
    ∃ q, it = build_item ok ld q ∧
      ((∃ n, dictFind? (some n) (projectsByName ps) = some q) ∨
        ∃ k, (k, q) ∈ projectsByName ps) := by
  simp only [build_landscape_from_static] at h
  split at h
  · obtain ⟨n, q, hq, rfl⟩ := mem_planCategories_items ok ld _ plan it h
    exact ⟨q, rfl, Or.inl ⟨n, hq⟩⟩
  · simp only [allItems, List.flatMap_append, List.mem_append] at h
    rcases h with h | h
    · obtain ⟨n, q, hq, rfl⟩ := mem_planCategories_items ok ld _ plan it h
      exact ⟨q, rfl, Or.inl ⟨n, hq⟩⟩
    · simp only [List.flatMap_cons, List.flatMap_nil, List.append_nil] at h
      obtain ⟨kv, hkv, rfl⟩ := mem_unassignedItems ok ld _ _ it (by simpa using h)
      exact ⟨kv.2, rfl, Or.inr ⟨kv.1, by simpa using hkv⟩⟩

/-! Counting lemmas for the exactly-once property. -/

/-- The plan-driven items, flattened, are the plan's flattened name list
filtered through the lookup. -/
theorem planFlat_eq_filterMap (ok : String → Bool) (ld : Bool)
    (lookup : List (Option String × Project)) (plan : List PlanCat) :
    (planCategories ok ld lookup plan).flatMap
        (fun c => c.subcategories.flatMap (fun s => s.items))
      = (planNames plan).filterMap (fun n =>
          (dictFind? (some n) lookup).map (build_item ok ld)) := by
  unfold planCategories planNames
  induction plan with
  | nil => rfl
  | cons cat plan ih =>
    simp only [List.map_cons, List.flatMap_cons, List.filterMap_append, ih]
    congr 1
    induction cat.subcategories with
    | nil => rfl
    | cons sub subs ih2 =>
      simp only [List.map_cons, List.flatMap_cons, List.filterMap_append, ih2]

/-- All items of the static output: the plan-driven items followed by the
unassigned items (the Unmapped category contributes exactly the latter,
or nothing when there are none). -/
theorem allItems_static (ok : String → Bool) (ld : Bool)
    (ps : List Project) (plan : List PlanCat) :
    allItems (build_landscape_from_static ok ld ps plan)
      = (planNames plan).filterMap (fun n =>
          (dictFind? (some n) (projectsByName ps)).map (build_item ok ld)) ++
        unassignedItems ok ld (projectsByName ps)
          (assignedNames (projectsByName ps) plan) := by
  unfold allItems
  rw [static_categories_eq, List.flatMap_append, planFlat_eq_filterMap]
  congr 1
  split
  · rename_i h
    simp only [List.flatMap_nil]
    exact (List.isEmpty_iff.mp h).symm
  · simp [unmappedCategory]

theorem count_eq_one_of_nodup_mem {α : Type} [BEq α] [LawfulBEq α] {l : List α}
    {a : α} (hnd : l.Nodup) (ha : a ∈ l) : l.count a = 1 := by
  induction l with
  | nil => cases ha
  | cons x xs ih =>
    rw [List.count_cons]
    rcases List.mem_cons.mp ha with rfl | hmem
    · rw [List.count_eq_zero_of_not_mem (List.nodup_cons.mp hnd).1]
      simp
    · have hne : ¬(a == x) = true := by
        intro hb
        have hax : a = x := eq_of_beq hb
        subst hax
        exact (List.nodup_cons.mp hnd).1 hmem
      rw [ih (List.nodup_cons.mp hnd).2 hmem]
      have hne2 : ¬x = a := fun h => hne (by simp [h])
      simp [hne, hne2]

theorem countP_str_map_str (names : List String) (n : String) :
    (names.map (fun m => some (JValue.str m))).countP
        (fun o => o == some (JValue.str n))
      = names.count n := by
  rw [List.countP_map, List.count]
  apply List.countP_congr
  intro m hm
  by_cases hmn : m = n
  · simp [hmn, Function.comp]
  · simp [Function.comp, hmn]

theorem countP_null_map_str (names : List String) :
    (names.map (fun m => some (JValue.str m))).countP
        (fun o => o == some JValue.null) = 0 := by
  rw [List.countP_map]
  apply List.countP_eq_zero.mpr
  intro m hm
  simp [Function.comp]

/-! Lemmas on the dynamic accumulator. -/

/-- The flattened items of the dynamic accumulator. -/
def dynItems (acc : DynAcc) : List Item :=
  acc.flatMap (fun cat => cat.2.flatMap (fun sub => sub.2))

theorem flatMap_map_eq {α β γ : Type} (f : α → β) (g : β → List γ) (l : List α) :
    (l.map f).flatMap g = l.flatMap (fun a => g (f a)) := by
  induction l with
  | nil => rfl
  | cons a l ih => simp [List.flatMap_cons, ih]

theorem allItems_dynToLandscape (acc : DynAcc) :
    allItems (dynToLandscape acc) = dynItems acc := by
  unfold allItems dynToLandscape dynItems
  simp only [flatMap_map_eq]

theorem subItems_length_upsert (subs : List (String × List Item)) (sn : String)
    (it : Item) :
    ((upsert sn [] (fun items => items ++ [it]) subs).flatMap (fun sub => sub.2)).length
      = (subs.flatMap (fun sub => sub.2)).length + 1 := by
  induction subs with
  | nil => simp [upsert]
  | cons hd tl ih =>
    obtain ⟨k, v⟩ := hd
    simp only [upsert]
    by_cases h1 : k = sn
    · rw [if_pos h1]
      simp only [List.flatMap_cons, List.length_append, List.length_cons,
        List.length_nil]
      omega
    · rw [if_neg h1]
      simp only [List.flatMap_cons, List.length_append, ih]
      omega

theorem dynItems_length_dynAdd (acc : DynAcc) (cn sn : String) (it : Item) :
    (dynItems (dynAdd acc cn sn it)).length = (dynItems acc).length + 1 := by
  unfold dynAdd dynItems
  induction acc with
  | nil =>
    simp [upsert]
  | cons hd tl ih =>
    obtain ⟨k, v⟩ := hd
    simp only [upsert]
    by_cases h1 : k = cn
    · rw [if_pos h1]
      simp only [List.flatMap_cons, List.length_append, subItems_length_upsert]
      omega
    · rw [if_neg h1]
      simp only [List.flatMap_cons, List.length_append, ih]
      omega

theorem dynLoop_items_length (ok : String → Bool) (ld : Bool) (ps : List Project) :
    ∀ acc out, dynLoop ok ld acc ps = some out →
      (dynItems out).length = (dynItems acc).length + ps.length := by
  induction ps with
  | nil =>
    intro acc out h
    injection h with h1
    rw [← h1]
    rfl
  | cons p ps ih =>
    intro acc out h
    unfold dynLoop at h
    cases hd : deriveCat p.category with
    | none => rw [hd] at h; cases h
    | some l =>
      rw [hd] at h
      obtain ⟨cn, sn⟩ := l
      rw [ih _ out h, dynItems_length_dynAdd]
      simp only [List.length_cons]
      omega

/-! First-occurrence order machinery for the dynamic accumulator. -/

/-- Association lookup on the accumulator's insertion-ordered lists. -/
def aFind? {β : Type} (k : String) : List (String × β) → Option β
  | [] => none
  | (k', v) :: rest => if k' = k then some v else aFind? k rest

/-- Appending a label to a first-occurrence list unless already seen. -/
def insFirst (ks : List String) (k : String) : List String :=
  if k ∈ ks then ks else ks ++ [k]

/-- The distinct labels of a list in first-occurrence order. -/
def dedupFirst (l : List String) : List String :=
  l.foldl insFirst []

/-- The labels the dynamic loop derives for each project, `none` when a
null-valued category aborts the run. -/
def deriveAll : List Project → Option (List (String × String))
  | [] => some []
  | p :: ps =>
    match deriveCat p.category, deriveAll ps with
    | some lab, some labs => some (lab :: labs)
    | _, _ => none

theorem keys_upsert {β : Type} (k : String) (d : β) (f : β → β)
    (l : List (String × β)) :
    (upsert k d f l).map Prod.fst = insFirst (l.map Prod.fst) k := by
  induction l with
  | nil => simp [upsert, insFirst]
  | cons hd tl ih =>
    obtain ⟨k', v⟩ := hd
    simp only [upsert]
    by_cases h1 : k' = k
    · rw [if_pos h1]
      simp [insFirst, h1]
    · rw [if_neg h1]
      simp only [List.map_cons, ih, insFirst, List.mem_cons]
      by_cases h2 : k ∈ tl.map Prod.fst
      · have hcond : k = k' ∨ k ∈ tl.map Prod.fst := Or.inr h2
        simp [h2, hcond]
      · have hcond : ¬(k = k' ∨ k ∈ tl.map Prod.fst) := by
          rintro (hh | hh)
          · exact h1 hh.symm
          · exact h2 hh
        simp only [h2, hcond, if_neg, if_false]
        have hcond2 : ¬(k = k' ∨ False) := by
          rintro (hh | hh)
          · exact h1 hh.symm
          · exact hh
        rw [if_neg hcond2, List.cons_append]

theorem aFind?_upsert {β : Type} (k k' : String) (d : β) (f : β → β)
    (l : List (String × β)) :
    aFind? k' (upsert k d f l)
      = if k' = k then some (f ((aFind? k l).getD d)) else aFind? k' l := by
  induction l with
  | nil =>
    simp only [upsert, aFind?]
    by_cases h : k' = k
    · rw [if_pos h.symm, if_pos h]
      rfl
    · rw [if_neg (fun hh => h hh.symm), if_neg h]
  | cons hd tl ih =>
    obtain ⟨k₀, v⟩ := hd
    simp only [upsert]
    by_cases h0 : k₀ = k
    · rw [if_pos h0]
      simp only [aFind?]
      by_cases h1 : k' = k
      · rw [if_pos (h1.symm), if_pos h1, if_pos h0]
        rfl
      · rw [if_neg (fun hh => h1 hh.symm), if_neg h1,
          if_neg (fun hh : k₀ = k' => h1 (h0.symm.trans hh).symm)]
    · rw [if_neg h0]
      simp only [aFind?, ih]
      by_cases h1 : k₀ = k'
      · rw [if_pos h1, if_pos h1]
        rw [if_neg (fun hh : k' = k => h0 (h1.trans hh))]
      · rw [if_neg h1, if_neg h1]
        by_cases h2 : k' = k
        · rw [if_pos h2, if_pos h2]
          rw [if_neg (fun hh : k₀ = k => h0 hh)]
        · rw [if_neg h2, if_neg h2]

theorem aFind?_of_mem {β : Type} (l : List (String × β))
    (hnd : (l.map Prod.fst).Nodup) (e : String × β) (h : e ∈ l) :
    aFind? e.1 l = some e.2 := by
  induction l with
  | nil => cases h
  | cons hd tl ih =>
    obtain ⟨hk, hv⟩ := hd
    simp only [List.map_cons, List.nodup_cons] at hnd
    rcases List.mem_cons.mp h with he | ht
    · have h1 : e.1 = hk := congrArg Prod.fst he
      have h2 : e.2 = hv := congrArg Prod.snd he
      simp only [aFind?, if_pos h1.symm, h2]
    · have hne : hk ≠ e.1 := by
        intro hh
        exact hnd.1 (List.mem_map.mpr ⟨e, ht, hh.symm⟩)
      simp only [aFind?, if_neg hne]
      exact ih hnd.2 ht

theorem nodup_foldl_insFirst (l : List String) :
    ∀ ks : List String, ks.Nodup → (l.foldl insFirst ks).Nodup := by
  induction l with
  | nil => exact fun ks h => h
  | cons x l ih =>
    intro ks h
    rw [List.foldl_cons]
    apply ih
    unfold insFirst
    by_cases hm : x ∈ ks
    · rwa [if_pos hm]
    · rw [if_neg hm]
      simp [List.nodup_append, h, hm]

theorem dynLoop_total (ok : String → Bool) (ld : Bool) :
    ∀ (ps : List Project) (labs : List (String × String)),
      deriveAll ps = some labs →
      ∀ acc, ∃ out, dynLoop ok ld acc ps = some out := by
  intro ps
  induction ps with
  | nil => exact fun labs _ acc => ⟨acc, rfl⟩
  | cons p ps ih =>
    intro labs hl acc
    simp only [deriveAll] at hl
    cases hd : deriveCat p.category with
    | none => rw [hd] at hl; cases hl
    | some lab =>
      rw [hd] at hl
      cases hall : deriveAll ps with
      | none => rw [hall] at hl; cases hl
      | some labs' =>
        obtain ⟨cn, sn⟩ := lab
        obtain ⟨out, hout⟩ :=
          ih labs' hall (dynAdd acc cn sn (build_item ok ld p))
        exact ⟨out, by unfold dynLoop; rw [hd]; exact hout⟩

/-- The category keys of the final accumulator: first-occurrence order of
the derived category labels, appended to whatever the accumulator already
holds. -/
theorem dynLoop_keys (ok : String → Bool) (ld : Bool) :
    ∀ (ps : List Project) (labs : List (String × String)) (acc out : DynAcc),
      deriveAll ps = some labs → dynLoop ok ld acc ps = some out →
      out.map Prod.fst = (labs.map Prod.fst).foldl insFirst (acc.map Prod.fst) := by
  intro ps
  induction ps with
  | nil =>
    intro labs acc out hl hout
    injection hl with hl1
    injection hout with hout1
    rw [← hl1, ← hout1]
    rfl
  | cons p ps ih =>
    intro labs acc out hl hout
    simp only [deriveAll] at hl
    cases hd : deriveCat p.category with
    | none => rw [hd] at hl; cases hl
    | some lab =>
      rw [hd] at hl
      cases hall : deriveAll ps with
      | none => rw [hall] at hl; cases hl
      | some labs' =>
        rw [hall] at hl
        injection hl with hl1
        obtain ⟨cn, sn⟩ := lab
        unfold dynLoop at hout
        rw [hd] at hout
        rw [ih labs' (dynAdd acc cn sn (build_item ok ld p)) out hall hout]
        rw [← hl1]
        simp only [List.map_cons, List.foldl_cons]
        unfold dynAdd
        rw [keys_upsert]

/-- The subcategory keys under each category label: first-occurrence
order of the subcategory labels derived for that category. -/
theorem dynLoop_subkeys (ok : String → Bool) (ld : Bool) :
    ∀ (ps : List Project) (labs : List (String × String)) (acc out : DynAcc),
      deriveAll ps = some labs → dynLoop ok ld acc ps = some out →
      ∀ c : String,
        ((aFind? c out).getD []).map Prod.fst
          = ((labs.filter (fun lab => lab.1 = c)).map Prod.snd).foldl insFirst
              (((aFind? c acc).getD []).map Prod.fst) := by
  intro ps
  induction ps with
  | nil =>
    intro labs acc out hl hout c
    injection hl with hl1
    injection hout with hout1
    rw [← hl1, ← hout1]
    rfl
  | cons p ps ih =>
    intro labs acc out hl hout c
    simp only [deriveAll] at hl
    cases hd : deriveCat p.category with
    | none => rw [hd] at hl; cases hl
    | some lab =>
      rw [hd] at hl
      cases hall : deriveAll ps with
      | none => rw [hall] at hl; cases hl
      | some labs' =>
        rw [hall] at hl
        injection hl with hl1
        obtain ⟨cn, sn⟩ := lab
        unfold dynLoop at hout
        rw [hd] at hout
        rw [ih labs' (dynAdd acc cn sn (build_item ok ld p)) out hall hout c]
        rw [← hl1]
        simp only [List.filter_cons]
        by_cases hc : cn = c
        · have hfind : aFind? c (dynAdd acc cn sn (build_item ok ld p))
              = some (upsert sn [] (fun items => items ++ [build_item ok ld p])
                  ((aFind? cn acc).getD [])) := by
            unfold dynAdd
            rw [aFind?_upsert, if_pos hc.symm]
          rw [hfind]
          simp only [Option.getD_some, keys_upsert, hc]
          simp [List.foldl_cons]
        · have hfind : aFind? c (dynAdd acc cn sn (build_item ok ld p))
              = aFind? c acc := by
            unfold dynAdd
            rw [aFind?_upsert, if_neg (fun hh : c = cn => hc hh.symm)]
          rw [hfind]
          simp [hc]

/-- The item list under each category/subcategory label pair: the items
of the projects deriving that pair, in load order. -/
theorem dynLoop_items_at (ok : String → Bool) (ld : Bool) :
    ∀ (ps : List Project) (labs : List (String × String)) (acc out : DynAcc),
      deriveAll ps = some labs → dynLoop ok ld acc ps = some out →
      ∀ c s : String,
        (aFind? s ((aFind? c out).getD [])).getD []
          = (aFind? s ((aFind? c acc).getD [])).getD []
            ++ ((ps.zip labs).filter (fun pl => pl.2 = (c, s))).map
                (fun pl => build_item ok ld pl.1) := by
  intro ps
  induction ps with
  | nil =>
    intro labs acc out hl hout c s
    injection hl with hl1
    injection hout with hout1
    rw [← hl1, ← hout1]
    simp
  | cons p ps ih =>
    intro labs acc out hl hout c s
    simp only [deriveAll] at hl
    cases hd : deriveCat p.category with
    | none => rw [hd] at hl; cases hl
    | some lab =>
      rw [hd] at hl
      cases hall : deriveAll ps with
      | none => rw [hall] at hl; cases hl
      | some labs' =>
        rw [hall] at hl
        injection hl with hl1
        obtain ⟨cn, sn⟩ := lab
        unfold dynLoop at hout
        rw [hd] at hout
        rw [ih labs' (dynAdd acc cn sn (build_item ok ld p)) out hall hout c s]
        rw [← hl1]
        simp only [List.zip_cons_cons, List.filter_cons]
        by_cases hcs : (cn, sn) = (c, s)
        · have hc : cn = c := congrArg Prod.fst hcs
          have hs : sn = s := congrArg Prod.snd hcs
          subst hc
          subst hs
          have hfind : aFind? cn (dynAdd acc cn sn (build_item ok ld p))
              = some (upsert sn [] (fun items => items ++ [build_item ok ld p])
                  ((aFind? cn acc).getD [])) := by
            unfold dynAdd
            rw [aFind?_upsert, if_pos rfl]
          rw [hfind, Option.getD_some, aFind?_upsert, if_pos rfl, Option.getD_some]
          simp [List.append_assoc]
        · by_cases hc : cn = c
          · have hs : ¬sn = s := by
              intro hh
              exact hcs (by rw [hc, hh])
            have hfind : aFind? c (dynAdd acc cn sn (build_item ok ld p))
                = some (upsert sn [] (fun items => items ++ [build_item ok ld p])
                    ((aFind? cn acc).getD [])) := by
              unfold dynAdd
              rw [aFind?_upsert, if_pos hc.symm]
            rw [hfind]
            simp only [Option.getD_some]
            rw [aFind?_upsert, if_neg (fun hh : s = sn => hs hh.symm), hc]
            simp [hs]
          · have hfind : aFind? c (dynAdd acc cn sn (build_item ok ld p))
                = aFind? c acc := by
              unfold dynAdd
              rw [aFind?_upsert, if_neg (fun hh : c = cn => hc hh.symm)]
            rw [hfind]
            simp [hcs]

/-! Claim theorems. -/

/-- C1: the claim says a project record without a `homepage_url` source
field yields an item with no `homepage_url` key at all.  The code
(`build_item`, lines 114–118, and the identical inline construction at
lines 217–221) writes the `name`, `description` and `homepage_url` keys
unconditionally, so an absent source field becomes a key bound to null —
contradicting the module docstring "Fields that are not present in the
input are omitted".  This theorem evaluates the embedded `build_item` at
such a record and exhibits the null-valued `homepage_url` key. -/
theorem C1_homepage_url_written_as_null :
    build_item (fun _ => false) false
        { name := JField.str "A", summary := JField.missing, url := JField.missing,
          state := JField.missing, category := JField.missing,
          github_repos := [], logo := JField.missing }
      = [("name", JValue.str "A"), ("description", JValue.null),
         ("homepage_url", JValue.null), ("logo", JValue.str "placeholder.svg")] := by
  rfl

/-- C6: logo resolution is total — `download_logo` always returns either
the file name derived from the URL or the placeholder token, and the logo
branch of item construction always returns the placeholder token, the
original URL, or the derived file name; no error ever reaches the
caller. -/
theorem C6_logo_resolution_total (ok : String → Bool) (logo_dir : Bool)
    (logo_url : Option String) :
    (∀ url, download_logo ok url = pyFileName url ∨
        download_logo ok url = "placeholder.svg") ∧
    (resolveLogo ok logo_dir logo_url = "placeholder.svg" ∨
      ∃ s, logo_url = some s ∧
        (resolveLogo ok logo_dir logo_url = s ∨
          resolveLogo ok logo_dir logo_url = pyFileName s)) := by
  constructor
  · intro url
    unfold download_logo
    split
    · exact Or.inl rfl
    · exact Or.inr rfl
  · cases logo_url with
    | none => left; simp [resolveLogo, truthy]
    | some s =>
      by_cases hs : s.isEmpty
      · left; simp [resolveLogo, truthy, hs]
      · by_cases hd : logo_dir
        · by_cases hk : ok s
          · right
            exact ⟨s, rfl, Or.inr (by
              simp [resolveLogo, truthy, hs, hd, download_logo, hk])⟩
          · left
            simp [resolveLogo, truthy, hs, hd, download_logo, hk]
        · right
          exact ⟨s, rfl, Or.inl (by simp [resolveLogo, truthy, hs, hd])⟩

/-- C10: the `"Unknown"` default applies only to an absent category key;
a category key bound to null makes the dynamic grouping raise (splitting
`None`), so the whole run produces no landscape. -/
theorem C10_null_category_raises (ok : String → Bool) (ld : Bool)
    (ps : List Project) (p : Project) (hp : p ∈ ps)
    (hc : p.category = JField.null) :
    build_landscape_from_dynamic ok ld ps = none ∧
    deriveCat JField.missing = some ("Unknown", "Misc") ∧
    deriveCat JField.null = none := by
  refine ⟨?_, rfl, rfl⟩
  unfold build_landscape_from_dynamic
  rw [dynLoop_eq_none ok ld ps p hp hc]
  rfl

/-- Concrete project records for the spec's dynamic-mode example. -/
def exProjA : Project :=
  { name := JField.str "A", summary := JField.missing, url := JField.missing,
    state := JField.missing, category := JField.str "Infra/Net",
    github_repos := [], logo := JField.missing }

def exProjB : Project :=
  { name := JField.str "B", summary := JField.missing, url := JField.missing,
    state := JField.missing, category := JField.str "Infra",
    github_repos := [], logo := JField.missing }

def exProjC : Project :=
  { name := JField.str "C", summary := JField.missing, url := JField.missing,
    state := JField.missing, category := JField.missing,
    github_repos := [], logo := JField.missing }

theorem pySplitOnce_of_not_mem (sep : Char) (s : String) (h : sep ∉ s.toList) :
    pySplitOnce sep s = [s] := by
  unfold pySplitOnce
  rw [if_neg h]

theorem pySplitOnce_append (a b : String) (ha : '/' ∉ a.toList) :
    pySplitOnce '/' (a ++ "/" ++ b) = [a, b] := by
  have hdata : (a ++ "/" ++ b).toList = a.toList ++ '/' :: b.toList := by
    show (a ++ "/" ++ b).data = a.data ++ '/' :: b.data
    rw [String.data_append, String.data_append, List.append_assoc]
    rfl
  have hmem : '/' ∈ (a ++ "/" ++ b).toList := by
    rw [hdata]
    simp
  have hall : ∀ x ∈ a.toList, (fun c : Char => decide (c ≠ '/')) x = true := by
    intro x hx
    simp only [decide_eq_true_eq]
    intro hEq
    exact ha (hEq ▸ hx)
  have ht : (a.toList ++ '/' :: b.toList).takeWhile (fun c => c ≠ '/') = a.toList :=
    takeWhile_append_of_all _ _ _ _ hall (by simp)
  have hd : (a.toList ++ '/' :: b.toList).dropWhile (fun c => c ≠ '/') = '/' :: b.toList :=
    dropWhile_append_of_all _ _ _ _ hall (by simp)
  unfold pySplitOnce
  rw [if_pos hmem, hdata, ht, hd]
  rfl

/-- C4: the dynamic category/subcategory labels come from splitting the
project's category field at its first `/` into at most two trimmed parts;
an absent field defaults to category `"Unknown"`, a separator-free field
is the whole category with subcategory `"Misc"`; and the spec's example
input produces exactly the claimed grouping. -/
theorem C4_dynamic_category_split :
    deriveCat JField.missing = some ("Unknown", "Misc") ∧
    (∀ s : String, '/' ∉ s.toList →
      deriveCat (JField.str s) = some (pyStrip s, "Misc")) ∧
    (∀ a b : String, '/' ∉ a.toList →
      deriveCat (JField.str (a ++ "/" ++ b)) = some (pyStrip a, pyStrip b)) ∧
    (build_landscape_from_dynamic (fun _ => false) false [exProjA, exProjB, exProjC]).map
        (fun L => L.categories.map (fun c =>
          (c.name, c.subcategories.map (fun s => (s.name, s.items.map itemName))))) =
      some [("Infra", [("Net", [some (JValue.str "A")]), ("Misc", [some (JValue.str "B")])]),
            ("Unknown", [("Misc", [some (JValue.str "C")])])] := by
  refine ⟨rfl, ?_, ?_, by decide⟩
  · intro s hs
    simp [deriveCat, deriveLabels, pySplitOnce_of_not_mem '/' s hs]
  · intro a b ha
    simp [deriveCat, deriveLabels, pySplitOnce_append a b ha]

/-- Witness for C4 at concrete category strings with and without a
separator. -/
theorem C4_dynamic_category_split_witness :
    deriveCat (JField.str ("Infra" ++ "/" ++ "Net")) = some (pyStrip "Infra", pyStrip "Net") ∧
    deriveCat (JField.str "Infra") = some (pyStrip "Infra", "Misc") :=
  ⟨C4_dynamic_category_split.2.2.1 "Infra" "Net" (by decide),
   C4_dynamic_category_split.2.1 "Infra" (by decide)⟩

/-- C8: `name` is the sole join key of static mode; a later project with
a duplicate name silently overwrites the earlier lookup entry, so the
name lookup always returns the last project carrying a given name key,
and every item of the static output (plan-driven or Unmapped) is built
from such a last-occurrence project.  The static builder is a total
function, so no error is raised for the duplicate. -/
theorem C8_duplicate_name_later_wins (ok : String → Bool) (ld : Bool)
    (ps : List Project) (plan : List PlanCat) :
    (∀ k, dictFind? k (projectsByName ps) =
      (ps.filter (fun q => pyName q == k)).getLast?) ∧
    (∀ it ∈ allItems (build_landscape_from_static ok ld ps plan),
      ∃ k q, (ps.filter (fun r => pyName r == k)).getLast? = some q ∧
        it = build_item ok ld q) := by
  refine ⟨fun k => dictFind?_projectsByName ps k, fun it hit => ?_⟩
  obtain ⟨q, rfl, hsrc⟩ := mem_allItems_static ok ld ps plan it hit
  rcases hsrc with ⟨n, hq⟩ | ⟨k, hkq⟩
  · exact ⟨some n, q, by rw [← dictFind?_projectsByName]; exact hq, rfl⟩
  · refine ⟨k, q, ?_, rfl⟩
    rw [← dictFind?_projectsByName]
    exact dictFind?_of_mem _ (projectsByName_keys_nodup ps) k q hkq

/-- Two concrete records sharing the name `"A"`. -/
def dupProjA1 : Project :=
  { name := JField.str "A", summary := JField.str "first", url := JField.missing,
    state := JField.missing, category := JField.missing,
    github_repos := [], logo := JField.missing }

def dupProjA2 : Project :=
  { name := JField.str "A", summary := JField.str "second", url := JField.missing,
    state := JField.missing, category := JField.missing,
    github_repos := [], logo := JField.missing }

/-- Witness for C8: with two projects named `"A"`, the lookup resolves to
the later record, and the item emitted for that name is built from it. -/
theorem C8_duplicate_name_later_wins_witness :
    dictFind? (some "A") (projectsByName [dupProjA1, dupProjA2]) =
      ([dupProjA1, dupProjA2].filter (fun q => pyName q == some "A")).getLast? ∧
    dictFind? (some "A") (projectsByName [dupProjA1, dupProjA2]) = some dupProjA2 ∧
    (∃ k q, ([dupProjA1, dupProjA2].filter (fun r => pyName r == k)).getLast? = some q ∧
      build_item (fun _ => false) false dupProjA2 = build_item (fun _ => false) false q) :=
  ⟨(C8_duplicate_name_later_wins (fun _ => false) false [dupProjA1, dupProjA2] []).1 (some "A"),
   by decide,
   (C8_duplicate_name_later_wins (fun _ => false) false [dupProjA1, dupProjA2] []).2
     (build_item (fun _ => false) false dupProjA2) (by decide)⟩

/-- C9: every plan category and subcategory is emitted, in plan order,
even when none of its referenced names resolves: the first plan-many
output categories carry exactly the plan's category and subcategory
names, and an emitted subcategory's item list is empty precisely when
every referenced name misses the lookup — unresolved plan names are
skipped without error. -/
theorem C9_empty_subcategories_emitted (ok : String → Bool) (ld : Bool)
    (ps : List Project) (plan : List PlanCat) :
    ((build_landscape_from_static ok ld ps plan).categories.take plan.length).map
        (fun c => (c.name, c.subcategories.map (fun s => (s.name, s.items.isEmpty))))
      = plan.map (fun cat => (cat.name, cat.subcategories.map (fun sub =>
          (sub.name, sub.items.all (fun n =>
            (dictFind? (some n) (projectsByName ps)).isNone))))) := by
  rw [static_categories_eq]
  have hlen : (planCategories ok ld (projectsByName ps) plan).length = plan.length := by
    simp [planCategories]
  rw [List.take_left' hlen]
  simp only [planCategories, List.map_map]
  apply List.map_congr_left
  intro cat hcat
  simp only [Function.comp]
  refine congrArg (fun x => (cat.name, x)) ?_
  simp only [List.map_map]
  apply List.map_congr_left
  intro sub hsub
  simp only [Function.comp]
  refine congrArg (fun x => (sub.name, x)) ?_
  rw [filterMap_isEmpty_eq_all]
  have hmapnone : ∀ n, ((dictFind? (some n) (projectsByName ps)).map
      (build_item ok ld)).isNone = (dictFind? (some n) (projectsByName ps)).isNone := by
    intro n
    cases dictFind? (some n) (projectsByName ps) <;> rfl
  simp only [hmapnone]

/-- C3: in static mode the output's categories and subcategories mirror
the plan's declaration order exactly, items within a plan-driven
subcategory follow the plan's name-list order restricted to resolvable
names, and past the plan-driven part the output holds exactly the
synthetic Unmapped category — present iff some loaded project was never
assigned, always last, and listing the leftover projects in original
load order. -/
theorem C3_static_plan_order (ok : String → Bool) (ld : Bool)
    (ps : List Project) (plan : List PlanCat)
    (hnd : (ps.map pyName).Nodup) :
    ((build_landscape_from_static ok ld ps plan).categories.take plan.length).map
        (fun c => (c.name, c.subcategories.map (fun s => (s.name, s.items.map itemName))))
      = plan.map (fun cat => (cat.name, cat.subcategories.map (fun sub =>
          (sub.name,
            (sub.items.filter (fun n =>
              (dictFind? (some n) (projectsByName ps)).isSome)).map
              (fun n => some (JValue.str n)))))) ∧
    (build_landscape_from_static ok ld ps plan).categories.drop plan.length
      = (if ps.filter (fun p => !isAssigned ps plan p) = [] then []
         else [unmappedCategory ((ps.filter (fun p => !isAssigned ps plan p)).map
                 (build_item ok ld))]) := by
  have hlen : (planCategories ok ld (projectsByName ps) plan).length = plan.length := by
    simp [planCategories]
  constructor
  · rw [static_categories_eq, List.take_left' hlen]
    simp only [planCategories, List.map_map]
    apply List.map_congr_left
    intro cat hcat
    simp only [Function.comp]
    refine congrArg (fun x => (cat.name, x)) ?_
    simp only [List.map_map]
    apply List.map_congr_left
    intro sub hsub
    simp only [Function.comp]
    exact congrArg (fun x => (sub.name, x)) (planSub_item_names ok ld ps sub.items)
  · rw [static_categories_eq, List.drop_left' hlen,
      unassignedItems_of_nodup ok ld ps plan hnd]
    by_cases hc : ps.filter (fun p => !isAssigned ps plan p) = []
    · simp [hc]
    · have hne : ¬((ps.filter (fun p => !isAssigned ps plan p)).map
          (build_item ok ld)).isEmpty = true := by
        simp [List.isEmpty_iff, hc]
      rw [if_neg hne, if_neg hc]

/-- A one-category, one-subcategory plan referencing the name `"A"`. -/
def planCore : List PlanCat :=
  [{ name := "Core", subcategories := [{ name := "Runtime", items := ["A"] }] }]

/-- Witness for C3: a concrete plan assigning `"A"` with a leftover
project `"B"` that lands in the trailing Unmapped category. -/
theorem C3_static_plan_order_witness :
    ([dupProjA1, exProjB].map pyName).Nodup ∧
    ((((build_landscape_from_static (fun _ => false) false [dupProjA1, exProjB]
          planCore).categories.take planCore.length).map
        (fun c => (c.name, c.subcategories.map (fun s => (s.name, s.items.map itemName))))
      = planCore.map (fun cat => (cat.name, cat.subcategories.map (fun sub =>
          (sub.name,
            (sub.items.filter (fun n =>
              (dictFind? (some n) (projectsByName [dupProjA1, exProjB])).isSome)).map
              (fun n => some (JValue.str n))))))) ∧
      (build_landscape_from_static (fun _ => false) false [dupProjA1, exProjB]
          planCore).categories.drop planCore.length
        = (if [dupProjA1, exProjB].filter
              (fun p => !isAssigned [dupProjA1, exProjB] planCore p) = [] then []
           else [unmappedCategory (([dupProjA1, exProjB].filter
                   (fun p => !isAssigned [dupProjA1, exProjB] planCore p)).map
                   (build_item (fun _ => false) false))])) :=
  ⟨by decide,
   C3_static_plan_order (fun _ => false) false [dupProjA1, exProjB] planCore (by decide)⟩

/-- A plan that references the project name `"A"` in two subcategories. -/
def planDupRef : List PlanCat :=
  [{ name := "C", subcategories :=
      [{ name := "S1", items := ["A"] },
       { name := "S2", items := ["A"] }] }]

/-- C2 counterexample: with one project named `"A"` and a plan that
references `"A"` in two subcategories, the project's item appears twice
in the static output, not exactly once — the plan loop never checks the
`assigned` set before appending. -/
theorem C2_counterexample :
    countNamed (build_landscape_from_static (fun _ => false) false [dupProjA1] planDupRef)
      (JValue.str "A") = 2 := by
  decide

/-- C2 (amended): when the loaded projects carry pairwise distinct name
keys and the plan references each project name at most once, every loaded
project appears in the static output exactly once — under its
plan-declared subcategory or under Unmapped/Misc, never both; and in
dynamic mode (when no null-valued category aborts the run) the output
holds exactly one item per loaded project. -/
theorem C2_exactly_once_amended (ok : String → Bool) (ld : Bool)
    (ps : List Project) (plan : List PlanCat)
    (hnd : (ps.map pyName).Nodup) (hplan : (planNames plan).Nodup) :
    (∀ p ∈ ps, countNamed (build_landscape_from_static ok ld ps plan)
        (jvalOf p.name) = 1) ∧
    (∀ L, build_landscape_from_dynamic ok ld ps = some L →
      (allItems L).length = ps.length) := by
  constructor
  · intro p hp
    have hmain : (allItems (build_landscape_from_static ok ld ps plan)).map itemName
        = (assignedNames (projectsByName ps) plan).map (fun n => some (JValue.str n))
          ++ (ps.filter (fun q => !isAssigned ps plan q)).map
              (fun q => some (jvalOf q.name)) := by
      rw [allItems_static, List.map_append]
      congr 1
      · exact planSub_item_names ok ld ps (planNames plan)
      · rw [unassignedItems_of_nodup ok ld ps plan hnd, List.map_map]
        apply List.map_congr_left
        intro q hq
        simp [Function.comp, itemName_build_item]
    have hcount : countNamed (build_landscape_from_static ok ld ps plan) (jvalOf p.name)
        = ((assignedNames (projectsByName ps) plan).map
            (fun n => some (JValue.str n))).countP (fun o => o == some (jvalOf p.name))
          + ((ps.filter (fun q => !isAssigned ps plan q)).map
              (fun q => some (jvalOf q.name))).countP
              (fun o => o == some (jvalOf p.name)) := by
      unfold countNamed
      rw [show (fun it : Item => itemName it == some (jvalOf p.name))
          = (fun o => o == some (jvalOf p.name)) ∘ itemName from rfl]
      rw [← List.countP_map, hmain, List.countP_append]
    rw [hcount]
    have hand : (assignedNames (projectsByName ps) plan).Nodup := hplan.filter _
    have hcm : ∀ m : String,
        (assignedNames (projectsByName ps) plan).contains m = true ↔
          m ∈ assignedNames (projectsByName ps) plan := by
      intro m
      simp [List.contains]
    cases hn : pyName p with
    | some n =>
      have hpn : p.name = JField.str n := pyName_some p n hn
      have hj : jvalOf p.name = JValue.str n := by rw [hpn]; rfl
      rw [hj, countP_str_map_str]
      have hsnd : ((ps.filter (fun q => !isAssigned ps plan q)).map
            (fun q => some (jvalOf q.name))).countP (fun o => o == some (JValue.str n))
          = (ps.filter (fun q => !isAssigned ps plan q)).countP
              (fun q => pyName q == some n) := by
        rw [List.countP_map]
        apply List.countP_congr
        intro q hq
        simp only [Function.comp]
        cases hqn : q.name with
        | missing => simp [pyName, pyGet, hqn, jvalOf]
        | null => simp [pyName, pyGet, hqn, jvalOf]
        | str s =>
          by_cases hs : s = n
          · simp [pyName, pyGet, hqn, jvalOf, hs]
          · simp [pyName, pyGet, hqn, jvalOf, hs]
      rw [hsnd, List.countP_filter]
      by_cases hassigned : n ∈ assignedNames (projectsByName ps) plan
      · rw [count_eq_one_of_nodup_mem hand hassigned]
        have hzero : ps.countP
            (fun q => pyName q == some n && !isAssigned ps plan q) = 0 := by
          apply List.countP_eq_zero.mpr
          intro q hq
          simp only [Bool.and_eq_true, beq_iff_eq, Bool.not_eq_true']
          rintro ⟨hqn, hqa⟩
          simp only [isAssigned, hqn] at hqa
          exact Bool.false_ne_true (hqa.symm.trans ((hcm n).mpr hassigned))
        rw [hzero]
      · rw [List.count_eq_zero_of_not_mem hassigned]
        have hone : ps.countP
            (fun q => pyName q == some n && !isAssigned ps plan q)
            = ps.countP (fun q => pyName q == some n) := by
          apply List.countP_congr
          intro q hq
          cases hb : (pyName q == some n) with
          | false => simp [hb]
          | true =>
            have hqn : pyName q = some n := by simpa using hb
            have : isAssigned ps plan q = false := by
              simp only [isAssigned, hqn]
              cases hcf : (assignedNames (projectsByName ps) plan).contains n with
              | false => rfl
              | true => exact (hassigned ((hcm n).mp hcf)).elim
            simp [hb, this]
        rw [hone]
        have : ps.countP (fun q => pyName q == some n)
            = (ps.map pyName).count (some n) := by
          rw [List.count_eq_countP, List.countP_map]
          rfl
        rw [this, count_eq_one_of_nodup_mem hnd (List.mem_map.mpr ⟨p, hp, hn⟩)]
    | none =>
      rw [pyName_none p hn, countP_null_map_str]
      have hsnd : ((ps.filter (fun q => !isAssigned ps plan q)).map
            (fun q => some (jvalOf q.name))).countP (fun o => o == some JValue.null)
          = (ps.filter (fun q => !isAssigned ps plan q)).countP
              (fun q => pyName q == none) := by
        rw [List.countP_map]
        apply List.countP_congr
        intro q hq
        simp only [Function.comp]
        cases hqn : q.name with
        | missing => simp [pyName, pyGet, hqn, jvalOf]
        | null => simp [pyName, pyGet, hqn, jvalOf]
        | str s => simp [pyName, pyGet, hqn, jvalOf]
      rw [hsnd, List.countP_filter]
      have hone : ps.countP (fun q => pyName q == none && !isAssigned ps plan q)
          = ps.countP (fun q => pyName q == none) := by
        apply List.countP_congr
        intro q hq
        cases hb : (pyName q == none) with
        | false => simp [hb]
        | true =>
          have hqn : pyName q = none := by simpa using hb
          have : isAssigned ps plan q = false := by
            simp only [isAssigned, hqn]
          simp [hb, this]
      rw [hone]
      have : ps.countP (fun q => pyName q == none)
          = (ps.map pyName).count none := by
        rw [List.count_eq_countP, List.countP_map]
        rfl
      rw [this, count_eq_one_of_nodup_mem hnd (List.mem_map.mpr ⟨p, hp, hn⟩)]
  · intro L hL
    unfold build_landscape_from_dynamic at hL
    obtain ⟨out, hout, hLd⟩ := Option.map_eq_some'.mp hL
    rw [← hLd, allItems_dynToLandscape]
    have := dynLoop_items_length ok ld ps [] out hout
    simpa [dynItems] using this

/-- Witness for C2 (amended) at two distinct-name projects and a plan
referencing each name at most once, in both modes. -/
theorem C2_exactly_once_amended_witness :
    countNamed (build_landscape_from_static (fun _ => false) false [dupProjA1, exProjB]
        planCore) (jvalOf dupProjA1.name) = 1 ∧
    (allItems ((build_landscape_from_dynamic (fun _ => false) false
        [dupProjA1, exProjB]).getD (dynToLandscape []))).length
      = [dupProjA1, exProjB].length :=
  ⟨(C2_exactly_once_amended (fun _ => false) false [dupProjA1, exProjB] planCore
      (by decide) (by decide)).1 dupProjA1 (by decide),
   (C2_exactly_once_amended (fun _ => false) false [dupProjA1, exProjB] planCore
      (by decide) (by decide)).2 _ (by decide)⟩

/-- C5: in dynamic mode the category order equals the first-occurrence
order of the derived category labels across the input sequence, the
subcategory order within each category equals the first-occurrence order
of that category's subcategory labels, and the items of each subcategory
are the items of the projects deriving that label pair, in input load
order — never an alphabetical or other sort. -/
theorem C5_dynamic_first_occurrence_order (ok : String → Bool) (ld : Bool)
    (ps : List Project) (labs : List (String × String))
    (hl : deriveAll ps = some labs) :
    ∃ L, build_landscape_from_dynamic ok ld ps = some L ∧
      catNames L = dedupFirst (labs.map Prod.fst) ∧
      (∀ c ∈ L.categories,
        subNames c = dedupFirst ((labs.filter (fun lab => lab.1 = c.name)).map Prod.snd)) ∧
      (∀ c ∈ L.categories, ∀ s ∈ c.subcategories,
        s.items = ((ps.zip labs).filter (fun pl => pl.2 = (c.name, s.name))).map
          (fun pl => build_item ok ld pl.1)) := by
  obtain ⟨out, hout⟩ := dynLoop_total ok ld ps labs hl []
  have hkeys : out.map Prod.fst = dedupFirst (labs.map Prod.fst) :=
    dynLoop_keys ok ld ps labs [] out hl hout
  have hknd : (out.map Prod.fst).Nodup := by
    rw [hkeys]
    exact nodup_foldl_insFirst _ [] List.nodup_nil
  have hsubk : ∀ e : String × List (String × List Item), e ∈ out →
      e.2.map Prod.fst
        = dedupFirst ((labs.filter (fun lab => lab.1 = e.1)).map Prod.snd) := by
    intro e he
    have h := dynLoop_subkeys ok ld ps labs [] out hl hout e.1
    rw [aFind?_of_mem out hknd e he] at h
    simpa [aFind?] using h
  refine ⟨dynToLandscape out, ?_, ?_, ?_, ?_⟩
  · unfold build_landscape_from_dynamic
    rw [hout]
    rfl
  · have h1 : catNames (dynToLandscape out) = out.map Prod.fst := by
      simp [catNames, dynToLandscape, List.map_map]
    rw [h1, hkeys]
  · intro c hc
    simp only [dynToLandscape, List.mem_map] at hc
    obtain ⟨e, he, rfl⟩ := hc
    simpa [subNames, List.map_map] using hsubk e he
  · intro c hc s hs
    simp only [dynToLandscape, List.mem_map] at hc
    obtain ⟨e, he, rfl⟩ := hc
    simp only [List.mem_map] at hs
    obtain ⟨d, hd, rfl⟩ := hs
    have hsnd : (e.2.map Prod.fst).Nodup := by
      rw [hsubk e he]
      exact nodup_foldl_insFirst _ [] List.nodup_nil
    have h := dynLoop_items_at ok ld ps labs [] out hl hout e.1 d.1
    rw [aFind?_of_mem out hknd e he] at h
    simp only [Option.getD_some] at h
    rw [aFind?_of_mem e.2 hsnd d hd] at h
    simpa [aFind?] using h

/-- Witness for C5 at the three-project example: the derived labels and
the categorised output in first-occurrence order. -/
theorem C5_dynamic_first_occurrence_order_witness :
    ∃ L, build_landscape_from_dynamic (fun _ => false) false
        [exProjA, exProjB, exProjC] = some L ∧
      catNames L = dedupFirst
        (([("Infra", "Net"), ("Infra", "Misc"), ("Unknown", "Misc")]
          : List (String × String)).map Prod.fst) ∧
      (∀ c ∈ L.categories,
        subNames c = dedupFirst
          ((([("Infra", "Net"), ("Infra", "Misc"), ("Unknown", "Misc")]
            : List (String × String)).filter (fun lab => lab.1 = c.name)).map Prod.snd)) ∧
      (∀ c ∈ L.categories, ∀ s ∈ c.subcategories,
        s.items = (([exProjA, exProjB, exProjC].zip
            ([("Infra", "Net"), ("Infra", "Misc"), ("Unknown", "Misc")]
              : List (String × String))).filter
            (fun pl => pl.2 = (c.name, s.name))).map
          (fun pl => build_item (fun _ => false) false pl.1)) :=
  C5_dynamic_first_occurrence_order (fun _ => false) false
    [exProjA, exProjB, exProjC]
    [("Infra", "Net"), ("Infra", "Misc"), ("Unknown", "Misc")] (by decide)

/-- Witness for C10 at a concrete record with a null-valued category. -/
theorem C10_null_category_raises_witness :
    build_landscape_from_dynamic (fun _ => false) false
        [{ name := JField.str "C", summary := JField.missing, url := JField.missing,
           state := JField.missing, category := JField.null,
           github_repos := [], logo := JField.missing }] = none ∧
    deriveCat JField.missing = some ("Unknown", "Misc") ∧
    deriveCat JField.null = none :=
  C10_null_category_raises (fun _ => false) false _ _ (List.mem_singleton.mpr rfl) rfl

end Landscape2
